import Mathlib

/-!
Verification of the OCR neural-network core (`server/src/ocr.py` and
`server/src/neural_network_design.py`) against its natural-language
specification.

The Python code is shallowly embedded: scalars are real numbers, a numpy
2-D array is a `List (List ℝ)` of rows, and numpy calls that raise on
shape mismatch are modelled as `Option`/`Except` values.  A crucial point
of fidelity: the four weight fields of `OCRNeuralNetwork` are Python
*lists* of numpy row arrays, so the statement `self.theta1 += M` runs
`list.__iadd__`, which *extends* the list with the rows of `M` instead of
adding elementwise.  The embedding reproduces that behaviour literally
(see `stepE`).
-/

/-- A numpy 2-D array: a list of rows. -/
abbrev Matrix' : Type := List (List ℝ)

/-- Number of columns numpy would report: the length of the first row. -/
def nCols (m : Matrix') : ℕ := (m.headD []).length

/-- All rows have the length of the first row (a well-formed 2-D array). -/
def isRect (m : Matrix') : Bool := m.all (fun r => r.length == nCols m)

/-- Dot product of two equally long row vectors. -/
def dotProd (xs ys : List ℝ) : ℝ := (List.zipWith (fun a b => a * b) xs ys).sum

/-- Model of `np.dot` for 2-D operands: defined when the inner dimensions agree,
otherwise numpy raises `ValueError` (modelled as `none`). -/
def npDot (a b : Matrix') : Option Matrix' :=
  if isRect a && isRect b && (nCols a == b.length) then
    some (a.map (fun r => (List.range (nCols b)).map
      (fun j => dotProd r (b.map (fun s => s.getD j 0)))))
  else none

/-- Elementwise binary numpy operation on two arrays of identical shape;
shape mismatch raises (modelled as `none`).  The call sites in `ocr.py`
only combine arrays of equal shape, so general broadcasting is not needed. -/
def npZip (f : ℝ → ℝ → ℝ) (a b : Matrix') : Option Matrix' :=
  if (a.length == b.length) && isRect a && isRect b && (nCols a == nCols b) then
    some (List.zipWith (List.zipWith f) a b)
  else none

/-- Addition of two numpy arrays of the same shape. -/
def npAdd (a b : Matrix') : Option Matrix' := npZip (fun x y => x + y) a b

/-- Subtraction of two numpy arrays of the same shape. -/
def npSub (a b : Matrix') : Option Matrix' := npZip (fun x y => x - y) a b

/-- Model of `np.multiply` (elementwise) on two numpy arrays of the same shape. -/
def npMulElem (a b : Matrix') : Option Matrix' := npZip (fun x y => x * y) a b

/-- Transpose (`.T`) of a 2-D array. -/
def transposeM (m : Matrix') : Matrix' :=
  (List.range (nCols m)).map (fun j => m.map (fun r => r.getD j 0))

/-- Scalar multiple of an array (`LEARNING_RATE * M`). -/
def smulM (c : ℝ) (m : Matrix') : Matrix' := m.map (fun r => r.map (fun x => c * x))

/-- Model of `np.array(x).reshape(-1, 1)` of a flat list: the column vector. -/
def colVec (x : List ℝ) : Matrix' := x.map (fun v => [v])

/-- Model of `.reshape(-1, 1)` of a 2-D array: flatten, then one element per row. -/
def reshapeCol (m : Matrix') : Matrix' := colVec m.flatten

/-- A single row array (`x.reshape(1, -1)`, equivalently the `.T` of a column). -/
def rowVec (x : List ℝ) : Matrix' := [x]

/-- The method `_sigmoid_scalar`: numerically stable logistic function.  The input is
first clipped to `[-500, 500]` (`np.clip`), then the nonnegative branch
computes `1 / (1 + e^-z)` and the negative branch `e^z / (1 + e^z)`. -/
noncomputable def sigmoidScalar (z : ℝ) : ℝ :=
  let zc := max (-500) (min z 500)
  if 0 ≤ zc then 1 / (1 + Real.exp (-zc))
  else Real.exp zc / (1 + Real.exp zc)

/-- The derivative `sigmoid_prime` on one scalar: `sigmoid(z) * (1 - sigmoid(z))`. -/
noncomputable def sigmoidPrimeScalar (z : ℝ) : ℝ :=
  sigmoidScalar z * (1 - sigmoidScalar z)

/-- The vectorized `sigmoid` applied to a 2-D array (shape preserved). -/
noncomputable def matSigmoid (m : Matrix') : Matrix' :=
  m.map (fun r => r.map sigmoidScalar)

/-- The vectorized `sigmoid_prime` applied to a 2-D array (shape preserved). -/
noncomputable def matSigmoidPrime (m : Matrix') : Matrix' :=
  m.map (fun r => r.map sigmoidPrimeScalar)

/-- The in-memory state of an `OCRNeuralNetwork` instance.  Each weight
field is a Python list of numpy row arrays, modelled as `Matrix'`;
`input_layer_bias` and `hidden_layer_bias` are lists of shape-`(1,)`
arrays, i.e. rows of length 1. -/
structure Network where
  theta1 : Matrix'
  theta2 : Matrix'
  input_layer_bias : Matrix'
  hidden_layer_bias : Matrix'
  num_hidden_nodes : ℕ

/-- The class constant `LEARNING_RATE`. -/
def LEARNING_RATE : ℝ := 0.1

/-- One-hot target column: `actual_vals = [0] * 10; actual_vals[label] = 1`,
then `np.array(actual_vals).reshape(-1, 1)`. -/
def oneHotCol (label : ℕ) : Matrix' :=
  (List.range 10).map (fun i => [if i = label then (1 : ℝ) else 0])

/-- One forward/backprop/update step on a validated sample, as `train`
and `_train` actually execute it.  `none` models an uncaught numpy
`ValueError` (shape misalignment).  NOTE the final update: the weight
fields are Python lists, so `+=` appends the rows of the update matrix
(`list.__iadd__` extends with any iterable); it does not add elementwise. -/
noncomputable def stepE (nn : Network) (x : List ℝ) (label : ℕ) : Option Network := do
  let xcol := colVec x
  let y1a ← npDot nn.theta1 xcol
  let sum1 ← npAdd y1a (reshapeCol nn.input_layer_bias)
  let y1 := matSigmoid sum1
  let y2a ← npDot nn.theta2 y1
  let y2b ← npAdd y2a (reshapeCol nn.hidden_layer_bias)
  let y2 := matSigmoid y2b
  let outputErrors ← npSub (oneHotCol label) y2
  let he1 ← npDot (transposeM nn.theta2) outputErrors
  let hiddenErrors ← npMulElem he1 (matSigmoidPrime sum1)
  let upd1 ← npDot hiddenErrors (rowVec x)
  let upd2 ← npDot outputErrors (transposeM y1)
  some { nn with
    theta1 := nn.theta1 ++ smulM LEARNING_RATE upd1
    theta2 := nn.theta2 ++ smulM LEARNING_RATE upd2
    hidden_layer_bias := nn.hidden_layer_bias ++ smulM LEARNING_RATE outputErrors
    input_layer_bias := nn.input_layer_bias ++ smulM LEARNING_RATE hiddenErrors }

theorem sigmoidScalar_pos (z : ℝ) : 0 < sigmoidScalar z := by
  unfold sigmoidScalar
  set zc := max (-500 : ℝ) (min z 500) with hzc
  by_cases h : 0 ≤ zc
  · simp only [h, if_pos]
    have := Real.exp_pos (-zc)
    positivity
  · simp only [h, if_neg, not_false_iff]
    have := Real.exp_pos zc
    positivity

theorem sigmoidScalar_lt_one (z : ℝ) : sigmoidScalar z < 1 := by
  unfold sigmoidScalar
  set zc := max (-500 : ℝ) (min z 500) with hzc
  by_cases h : 0 ≤ zc
  · simp only [h, if_pos]
    rw [div_lt_one (by have := Real.exp_pos (-zc); linarith)]
    have := Real.exp_pos (-zc)
    linarith
  · simp only [h, if_neg, not_false_iff]
    rw [div_lt_one (by have := Real.exp_pos zc; linarith)]
    linarith

theorem sigmoidScalar_zero : sigmoidScalar 0 = 1 / 2 := by
  unfold sigmoidScalar
  norm_num

theorem sigmoidPrimeScalar_zero : sigmoidPrimeScalar 0 = 1 / 4 := by
  unfold sigmoidPrimeScalar
  rw [sigmoidScalar_zero]
  norm_num

theorem sigmoidScalar_neg_branch (z : ℝ) (h1 : -500 ≤ z) (h2 : z < 0) :
    sigmoidScalar z = Real.exp z / (1 + Real.exp z) := by
  unfold sigmoidScalar
  have hmin : min z 500 = z := min_eq_left (by linarith)
  have hmax : max (-500 : ℝ) (min z 500) = z := by rw [hmin]; exact max_eq_right h1
  rw [hmax]
  simp only [if_neg (not_le.mpr h2)]

/-- C4: for every real `z` the stable sigmoid lies strictly in `(0,1)`;
`sigmoid(0) = 1/2` and `sigmoidPrime(0) = 1/4`; the implementation first
clips its argument to `[-500, 500]` (so the exponential is only ever taken
at a magnitude `≤ 500`, which is what prevents overflow/NaN: inputs of
magnitude `1e10` behave exactly like `±500`), and for negative clipped
arguments it branches to the algebraic form `e^z / (1 + e^z)`. -/
theorem C4_sigmoid_stable :
    (∀ z : ℝ, 0 < sigmoidScalar z ∧ sigmoidScalar z < 1) ∧
    sigmoidScalar 0 = 1 / 2 ∧
    sigmoidPrimeScalar 0 = 1 / 4 ∧
    (∀ z : ℝ, |max (-500) (min z 500)| ≤ 500) ∧
    (∀ z : ℝ, -500 ≤ z → z < 0 →
      sigmoidScalar z = Real.exp z / (1 + Real.exp z)) ∧
    sigmoidScalar ((10 : ℝ) ^ 10) = sigmoidScalar 500 ∧
    sigmoidScalar (-(10 : ℝ) ^ 10) = sigmoidScalar (-500) := by
  refine ⟨fun z => ⟨sigmoidScalar_pos z, sigmoidScalar_lt_one z⟩,
    sigmoidScalar_zero, sigmoidPrimeScalar_zero, ?_, sigmoidScalar_neg_branch, ?_, ?_⟩
  · intro z
    rw [abs_le]
    constructor
    · exact le_max_left _ _
    · exact max_le (by norm_num) (min_le_right _ _)
  · unfold sigmoidScalar
    have h1 : min ((10 : ℝ) ^ 10) 500 = 500 := min_eq_right (by norm_num)
    have h2 : min (500 : ℝ) 500 = 500 := min_self _
    rw [h1, h2]
  · unfold sigmoidScalar
    have h1 : max (-500 : ℝ) (min (-(10 : ℝ) ^ 10) 500) = -500 := by
      rw [min_eq_left (by norm_num)]
      exact max_eq_left (by norm_num)
    have h2 : max (-500 : ℝ) (min (-500 : ℝ) 500) = -500 := by
      rw [min_eq_left (by norm_num)]
      exact max_eq_left le_rfl
    rw [h1, h2]

/-- The theorem for C4 has hypotheses in its negative-branch conjunct;
this witness instantiates every part at concrete inputs. -/
theorem C4_sigmoid_stable_witness :
    (0 < sigmoidScalar 3 ∧ sigmoidScalar 3 < 1) ∧
    sigmoidScalar (-1) = Real.exp (-1) / (1 + Real.exp (-1)) := by
  refine ⟨C4_sigmoid_stable.1 3, ?_⟩
  exact C4_sigmoid_stable.2.2.2.2.1 (-1) (by norm_num) (by norm_num)

/-- A rectangular nested numeric array as numpy sees it after
`np.array(..., dtype=float)`: the inferred shape together with the flat
(row-major) element list.  A well-formed value has
`data.length = shape.prod`. -/
structure NDArray where
  shape : List ℕ
  data : List ℝ

/-- A numeric JSON payload value as Python receives it for a label. -/
inductive PyNum where
  | int (z : ℤ)
  | float (q : ℚ)

/-- Python's `int(...)` on a number: the identity on ints, truncation
toward zero on floats. -/
def pyInt : PyNum → ℤ
  | .int z => z
  | .float q => if 0 ≤ q then ⌊q⌋ else ⌈q⌉

/-- One element of the `training_data_array`: the dict `{y0, label}`,
each field possibly absent. -/
structure Sample where
  y0 : Option NDArray
  label : Option PyNum

/-- The failures `train` can raise, with the data each message carries. -/
inductive TrainError where
  | emptyInput
  | missingFields (idx : ℕ)
  | shape (idx : ℕ) (got : ℕ)
  | range (idx : ℕ) (label : ℤ)
  | numpyFailure (idx : ℕ)
deriving DecidableEq

/-- The validation block at the top of `train`'s per-sample loop:
field presence, `np.array(data["y0"], dtype=float).reshape(-1, 1)` must
have 400 rows (i.e. 400 scalar elements in total), and
`label = int(data["label"])` must satisfy `0 <= label <= 9`. -/
def validateSample (idx : ℕ) (s : Sample) : Except TrainError (List ℝ × ℕ) :=
  match s.y0, s.label with
  | none, _ => .error (.missingFields idx)
  | some _, none => .error (.missingFields idx)
  | some a, some l =>
    if (colVec a.data).length ≠ 400 then .error (.shape idx (colVec a.data).length)
    else
      let label := pyInt l
      if label < 0 ∨ 9 < label then .error (.range idx label)
      else .ok (a.data, label.toNat)

/-- The per-sample loop of `train`, threading the mutable instance state.
A raised exception stops the loop; updates from earlier samples stay. -/
noncomputable def trainGo (nn : Network) : ℕ → List Sample → Network × Option TrainError
  | _, [] => (nn, none)
  | idx, s :: rest =>
    match validateSample idx s with
    | .error e => (nn, some e)
    | .ok (x, label) =>
      match stepE nn x label with
      | none => (nn, some (.numpyFailure idx))
      | some nn' => trainGo nn' (idx + 1) rest

/-- The method `train(training_data_array)`: empty batches are rejected, otherwise
the samples are validated and trained one at a time. -/
noncomputable def train (nn : Network) (samples : List Sample) :
    Network × Option TrainError :=
  if samples.isEmpty then (nn, some .emptyInput) else trainGo nn 0 samples

/-- Predicate `Shaped m r c`: numpy would report shape `(r, c)` for this array. -/
def Shaped (m : Matrix') (r c : ℕ) : Prop :=
  m.length = r ∧ ∀ row ∈ m, row.length = c

theorem nCols_of_shaped {m : Matrix'} {r c : ℕ} (h : Shaped m r c) (hr : 0 < r) :
    nCols m = c := by
  obtain ⟨hl, hrow⟩ := h
  cases m with
  | nil => simp at hl; omega
  | cons a t => exact hrow a (List.mem_cons_self a t)

theorem isRect_of_shaped {m : Matrix'} {r c : ℕ} (h : Shaped m r c) :
    isRect m = true := by
  obtain ⟨hl, hrow⟩ := h
  cases m with
  | nil => rfl
  | cons a t =>
    simp only [isRect, List.all_eq_true, beq_iff_eq]
    intro row hmem
    rw [hrow row hmem]
    have := hrow a (List.mem_cons_self a t)
    simp only [nCols, List.headD_cons]
    omega

theorem npDot_some {a b : Matrix'} {ra ca cb : ℕ}
    (ha : Shaped a ra ca) (hb : Shaped b ca cb) (hra : 0 < ra) (hca : 0 < ca) :
    ∃ m, npDot a b = some m ∧ Shaped m ra cb := by
  have hc1 : nCols a = ca := nCols_of_shaped ha hra
  have hc2 : nCols b = cb := nCols_of_shaped hb hca
  unfold npDot
  rw [isRect_of_shaped ha, isRect_of_shaped hb, hc1, hb.1]
  simp only [beq_self_eq_true, Bool.and_self, Bool.and_true, if_true]
  refine ⟨_, rfl, ?_, ?_⟩
  · simp [ha.1]
  · intro row hmem
    simp only [List.mem_map] at hmem
    obtain ⟨r0, _, hr0⟩ := hmem
    rw [← hr0]
    simp [hc2]

theorem shaped_zipWith {f : ℝ → ℝ → ℝ} :
    ∀ (a b : Matrix') {c : ℕ}, (∀ row ∈ a, row.length = c) →
      (∀ row ∈ b, row.length = c) → a.length = b.length →
      Shaped (List.zipWith (List.zipWith f) a b) a.length c
  | [], _, _, _, _, _ => by simp [Shaped]
  | _ :: _, [], _, _, _, h => by simp at h
  | x :: a', y :: b', c, ha, hb, hlen => by
    simp only [List.zipWith_cons_cons]
    have ih := shaped_zipWith (f := f) a' b' (c := c)
      (fun row h => ha row (by simp [h])) (fun row h => hb row (by simp [h]))
      (by simpa using hlen)
    refine ⟨by simp [ih.1], ?_⟩
    intro row hmem
    rcases List.mem_cons.mp hmem with h | h
    · rw [h, List.length_zipWith, ha x (by simp), hb y (by simp)]
      omega
    · exact ih.2 row h

theorem npZip_some {f : ℝ → ℝ → ℝ} {a b : Matrix'} {r c : ℕ}
    (ha : Shaped a r c) (hb : Shaped b r c) :
    ∃ m, npZip f a b = some m ∧ Shaped m r c := by
  have hcols : nCols a = nCols b := by
    rcases Nat.eq_zero_or_pos r with hr | hr
    · subst hr
      have h1 : a = [] := List.length_eq_zero.mp ha.1
      have h2 : b = [] := List.length_eq_zero.mp hb.1
      rw [h1, h2]
    · rw [nCols_of_shaped ha hr, nCols_of_shaped hb hr]
  unfold npZip
  rw [isRect_of_shaped ha, isRect_of_shaped hb, ha.1, hb.1, hcols]
  simp only [beq_self_eq_true, Bool.and_self, Bool.true_and, Bool.and_true, if_true]
  refine ⟨_, rfl, ?_⟩
  have := shaped_zipWith (f := f) a b ha.2 hb.2 (by rw [ha.1, hb.1])
  rwa [ha.1] at this

theorem shaped_transposeM {m : Matrix'} {r c : ℕ} (h : Shaped m r c) (hr : 0 < r) :
    Shaped (transposeM m) c r := by
  have hc : nCols m = c := nCols_of_shaped h hr
  constructor
  · simp [transposeM, hc]
  · intro row hmem
    simp only [transposeM, List.mem_map] at hmem
    obtain ⟨j, _, hj⟩ := hmem
    rw [← hj]
    simp [h.1]

theorem shaped_colVec (x : List ℝ) : Shaped (colVec x) x.length 1 := by
  constructor
  · simp [colVec]
  · intro row hmem
    simp only [colVec, List.mem_map] at hmem
    obtain ⟨v, _, hv⟩ := hmem
    rw [← hv]
    rfl

theorem flatten_length_of_shaped :
    ∀ (m : Matrix') (r : ℕ), Shaped m r 1 → m.flatten.length = r
  | [], r, h => by simpa using h.1
  | x :: m', r, h => by
    have hx : x.length = 1 := h.2 x (by simp)
    have ih := flatten_length_of_shaped m' (r - 1)
      ⟨by have := h.1; simp at this ⊢; omega, fun row hm => h.2 row (by simp [hm])⟩
    have hr : 0 < r := by have := h.1; simp at this; omega
    simp only [List.flatten_cons, List.length_append, hx, ih]
    omega

theorem shaped_reshapeCol {m : Matrix'} {r : ℕ} (h : Shaped m r 1) :
    Shaped (reshapeCol m) r 1 := by
  unfold reshapeCol
  have := shaped_colVec m.flatten
  rwa [flatten_length_of_shaped m r h] at this

theorem shaped_oneHotCol (l : ℕ) : Shaped (oneHotCol l) 10 1 := by
  constructor
  · simp [oneHotCol]
  · intro row hmem
    simp only [oneHotCol, List.mem_map] at hmem
    obtain ⟨i, _, hi⟩ := hmem
    rw [← hi]
    rfl

theorem shaped_mapRows {g : ℝ → ℝ} {m : Matrix'} {r c : ℕ} (h : Shaped m r c) :
    Shaped (m.map (fun row => row.map g)) r c := by
  constructor
  · simp [h.1]
  · intro row hmem
    simp only [List.mem_map] at hmem
    obtain ⟨row0, hm0, hr0⟩ := hmem
    rw [← hr0]
    simp [h.2 row0 hm0]

theorem shaped_matSigmoid {m : Matrix'} {r c : ℕ} (h : Shaped m r c) :
    Shaped (matSigmoid m) r c := shaped_mapRows h

theorem shaped_matSigmoidPrime {m : Matrix'} {r c : ℕ} (h : Shaped m r c) :
    Shaped (matSigmoidPrime m) r c := shaped_mapRows h

theorem shaped_rowVec (x : List ℝ) : Shaped (rowVec x) 1 x.length := by
  constructor
  · rfl
  · intro row hmem
    simp only [rowVec, List.mem_singleton] at hmem
    rw [hmem]

/-- The shape invariant of a constructed (or loaded) network with hidden
layer width `num_hidden_nodes` (spec section 3, "Network" invariant). -/
structure WF (nn : Network) : Prop where
  t1 : Shaped nn.theta1 nn.num_hidden_nodes 400
  t2 : Shaped nn.theta2 10 nn.num_hidden_nodes
  b1 : Shaped nn.input_layer_bias nn.num_hidden_nodes 1
  b2 : Shaped nn.hidden_layer_bias 10 1
  pos : 0 < nn.num_hidden_nodes

theorem stepE_some (nn : Network) (x : List ℝ) (l : ℕ)
    (hwf : WF nn) (hx : x.length = 400) :
    ∃ nn', stepE nn x l = some nn' := by
  have hxc : Shaped (colVec x) 400 1 := by rw [← hx]; exact shaped_colVec x
  have hxr : Shaped (rowVec x) 1 400 := by rw [← hx]; exact shaped_rowVec x
  obtain ⟨y1a, e1, s1⟩ := npDot_some hwf.t1 hxc hwf.pos (by norm_num)
  obtain ⟨sum1, e2, s2⟩ :=
    npZip_some (f := fun u v => u + v) s1 (shaped_reshapeCol hwf.b1)
  obtain ⟨y2a, e3, s3⟩ :=
    npDot_some hwf.t2 (shaped_matSigmoid s2) (by norm_num) hwf.pos
  obtain ⟨y2b, e4, s4⟩ :=
    npZip_some (f := fun u v => u + v) s3 (shaped_reshapeCol hwf.b2)
  obtain ⟨oe, e5, s5⟩ :=
    npZip_some (f := fun u v => u - v) (shaped_oneHotCol l) (shaped_matSigmoid s4)
  obtain ⟨he1, e6, s6⟩ :=
    npDot_some (shaped_transposeM hwf.t2 (by norm_num)) s5 hwf.pos (by norm_num)
  obtain ⟨hid, e7, s7⟩ :=
    npZip_some (f := fun u v => u * v) s6 (shaped_matSigmoidPrime s2)
  obtain ⟨u1, e8, s8⟩ := npDot_some s7 hxr hwf.pos (by norm_num)
  obtain ⟨u2, e9, s9⟩ :=
    npDot_some s5 (shaped_transposeM (shaped_matSigmoid s2) hwf.pos)
      (by norm_num) (by norm_num)
  rw [← Option.isSome_iff_exists]
  simp [stepE, npAdd, npSub, npMulElem, e1, e2, e3, e4, e5, e6, e7, e8, e9]

theorem validateSample_label (idx : ℕ) (a : NDArray) (l : PyNum)
    (h : a.data.length = 400) :
    validateSample idx ⟨some a, some l⟩ =
      if 0 ≤ pyInt l ∧ pyInt l ≤ 9 then .ok (a.data, (pyInt l).toNat)
      else .error (.range idx (pyInt l)) := by
  unfold validateSample
  have hc : (colVec a.data).length = 400 := by simp [colVec, h]
  simp only [hc, ne_eq, not_true_eq_false, if_false]
  split_ifs with h1 h2 h2 <;> first
    | rfl
    | omega

/-- A 400-long all-zero pixel list. -/
def zeros400 : List ℝ := List.replicate 400 0

/-- The flat numpy view of `zeros400` (shape `(400,)`). -/
def flat400 : NDArray := ⟨[400], zeros400⟩

/-- A well-formed network of hidden width 1 whose weights are all zero. -/
def zeroNet : Network where
  theta1 := [zeros400]
  theta2 := List.replicate 10 [0]
  input_layer_bias := [[0]]
  hidden_layer_bias := List.replicate 10 [0]
  num_hidden_nodes := 1

theorem WF_zeroNet : WF zeroNet := by
  refine ⟨⟨rfl, ?_⟩, ⟨rfl, ?_⟩, ⟨rfl, ?_⟩, ⟨rfl, ?_⟩, Nat.one_pos⟩
  · intro row hmem
    rw [show zeroNet.theta1 = [zeros400] from rfl, List.mem_singleton] at hmem
    rw [hmem]
    simp only [zeros400, List.length_replicate]
  · intro row hmem
    rw [show zeroNet.theta2 = List.replicate 10 [0] from rfl] at hmem
    rw [List.eq_of_mem_replicate hmem]
    rfl
  · intro row hmem
    rw [show zeroNet.input_layer_bias = [[0]] from rfl, List.mem_singleton] at hmem
    rw [hmem]
    rfl
  · intro row hmem
    rw [show zeroNet.hidden_layer_bias = List.replicate 10 [0] from rfl] at hmem
    rw [List.eq_of_mem_replicate hmem]
    rfl

theorem zeros400_length : zeros400.length = 400 := by
  simp only [zeros400, List.length_replicate]

theorem flat400_data_length : flat400.data.length = 400 := zeros400_length

theorem pyInt_nine_point_five : pyInt (.float (19 / 2)) = 9 := by
  simp only [pyInt]
  rw [if_pos (by norm_num)]
  rw [Int.floor_eq_iff]
  norm_num

/-- C1 counterexample: the label `9.5` is not an integer in `[0,9]`,
yet `train` on a single otherwise-valid sample with that label raises no
error at all: `label = int(data["label"])` truncates `9.5` to `9`, which
passes the range check, and the step then completes. -/
theorem C1_counterexample :
    (train zeroNet [⟨some flat400, some (.float (19 / 2))⟩]).2 = none ∧
      ¬ ∃ z : ℤ, (19 : ℚ) / 2 = (z : ℚ) := by
  constructor
  · have hv : validateSample 0 ⟨some flat400, some (.float (19 / 2))⟩ =
        .ok (zeros400, 9) := by
      rw [validateSample_label 0 flat400 _ flat400_data_length]
      rw [pyInt_nine_point_five]
      rw [if_pos (by norm_num)]
      rfl
    obtain ⟨nn', hs⟩ := stepE_some zeroNet zeros400 9 WF_zeroNet zeros400_length
    unfold train
    rw [if_neg (by simp)]
    simp only [trainGo, hv, hs]
  · rintro ⟨z, hz⟩
    have h2 : (19 : ℚ) = 2 * (z : ℚ) := by field_simp at hz; linarith
    have h3 : (19 : ℤ) = 2 * z := by exact_mod_cast h2
    omega

/-- C1 (amended): label validation in `train` applies Python's
`int(...)` first, which truncates non-integral numeric labels toward
zero; when a sample's validation is reached (shown here for the sample
a batch starts with), `train` fails with a range error naming the
sample position exactly when the truncated label lies outside `[0,9]`.
In particular labels `15` and `-1` are rejected, labels `0` and `9`
pass, and a non-integral label such as `9.5` also passes (as `9`). -/
theorem C1_label_validation :
    (∀ (idx : ℕ) (a : NDArray) (l : PyNum), a.data.length = 400 →
      validateSample idx ⟨some a, some l⟩ =
        if 0 ≤ pyInt l ∧ pyInt l ≤ 9 then .ok (a.data, (pyInt l).toNat)
        else .error (.range idx (pyInt l))) ∧
    (∀ (nn : Network) (a : NDArray) (l : PyNum), a.data.length = 400 →
      (pyInt l < 0 ∨ 9 < pyInt l) →
      (train nn [⟨some a, some l⟩]).2 = some (.range 0 (pyInt l))) ∧
    (∀ (nn : Network) (a : NDArray) (l : PyNum), WF nn → a.data.length = 400 →
      0 ≤ pyInt l → pyInt l ≤ 9 →
      (train nn [⟨some a, some l⟩]).2 = none) := by
  refine ⟨validateSample_label, ?_, ?_⟩
  · intro nn a l h hout
    unfold train
    rw [if_neg (by simp)]
    simp only [trainGo, validateSample_label 0 a l h]
    rw [if_neg (by omega)]
  · intro nn a l hwf h h0 h9
    obtain ⟨nn', hs⟩ := stepE_some nn a.data (pyInt l).toNat hwf h
    unfold train
    rw [if_neg (by simp)]
    simp only [trainGo, validateSample_label 0 a l h]
    rw [if_pos ⟨h0, h9⟩]
    simp only [trainGo, hs]

/-- Witness for C1: labels `15` and `-1` are rejected with a range error
at position 0, labels `0` and `9` train without error. -/
theorem C1_label_validation_witness :
    validateSample 2 ⟨some flat400, some (.int 15)⟩ = .error (.range 2 15) ∧
    (train zeroNet [⟨some flat400, some (.int 15)⟩]).2 = some (.range 0 15) ∧
    (train zeroNet [⟨some flat400, some (.int (-1))⟩]).2 = some (.range 0 (-1)) ∧
    (train zeroNet [⟨some flat400, some (.int 0)⟩]).2 = none ∧
    (train zeroNet [⟨some flat400, some (.int 9)⟩]).2 = none := by
  refine ⟨?_, ?_, ?_, ?_, ?_⟩
  · rw [C1_label_validation.1 2 flat400 (.int 15) flat400_data_length]
    rw [if_neg (by decide)]
    rfl
  · exact C1_label_validation.2.1 zeroNet flat400 (.int 15)
      flat400_data_length (by decide)
  · exact C1_label_validation.2.1 zeroNet flat400 (.int (-1))
      flat400_data_length (by decide)
  · exact C1_label_validation.2.2 zeroNet flat400 (.int 0)
      WF_zeroNet flat400_data_length (by decide) (by decide)
  · exact C1_label_validation.2.2 zeroNet flat400 (.int 9)
      WF_zeroNet flat400_data_length (by decide) (by decide)

theorem shaped_append {a b : Matrix'} {ra rb c : ℕ}
    (ha : Shaped a ra c) (hb : Shaped b rb c) : Shaped (a ++ b) (ra + rb) c := by
  refine ⟨by simp [ha.1, hb.1], ?_⟩
  intro row hmem
  rcases List.mem_append.mp hmem with h | h
  · exact ha.2 row h
  · exact hb.2 row h

theorem shaped_smulM {k : ℝ} {m : Matrix'} {r c : ℕ} (h : Shaped m r c) :
    Shaped (smulM k m) r c := shaped_mapRows h

/-- A successful training step returns the instance with all four weight
lists *extended*: row counts double for `theta1`/`input_layer_bias` and
grow from 10 to 20 for `theta2`/`hidden_layer_bias` (the `+=`-on-list
slip), while `num_hidden_nodes` is untouched. -/
theorem stepE_shapes (nn : Network) (x : List ℝ) (l : ℕ)
    (hwf : WF nn) (hx : x.length = 400) :
    ∃ nn', stepE nn x l = some nn' ∧
      Shaped nn'.theta1 (nn.num_hidden_nodes + nn.num_hidden_nodes) 400 ∧
      Shaped nn'.theta2 20 nn.num_hidden_nodes ∧
      Shaped nn'.input_layer_bias (nn.num_hidden_nodes + nn.num_hidden_nodes) 1 ∧
      Shaped nn'.hidden_layer_bias 20 1 ∧
      nn'.num_hidden_nodes = nn.num_hidden_nodes := by
  have hxc : Shaped (colVec x) 400 1 := by rw [← hx]; exact shaped_colVec x
  have hxr : Shaped (rowVec x) 1 400 := by rw [← hx]; exact shaped_rowVec x
  obtain ⟨y1a, e1, s1⟩ := npDot_some hwf.t1 hxc hwf.pos (by norm_num)
  obtain ⟨sum1, e2, s2⟩ :=
    npZip_some (f := fun u v => u + v) s1 (shaped_reshapeCol hwf.b1)
  obtain ⟨y2a, e3, s3⟩ :=
    npDot_some hwf.t2 (shaped_matSigmoid s2) (by norm_num) hwf.pos
  obtain ⟨y2b, e4, s4⟩ :=
    npZip_some (f := fun u v => u + v) s3 (shaped_reshapeCol hwf.b2)
  obtain ⟨oe, e5, s5⟩ :=
    npZip_some (f := fun u v => u - v) (shaped_oneHotCol l) (shaped_matSigmoid s4)
  obtain ⟨he1, e6, s6⟩ :=
    npDot_some (shaped_transposeM hwf.t2 (by norm_num)) s5 hwf.pos (by norm_num)
  obtain ⟨hid, e7, s7⟩ :=
    npZip_some (f := fun u v => u * v) s6 (shaped_matSigmoidPrime s2)
  obtain ⟨u1, e8, s8⟩ := npDot_some s7 hxr hwf.pos (by norm_num)
  obtain ⟨u2, e9, s9⟩ :=
    npDot_some s5 (shaped_transposeM (shaped_matSigmoid s2) hwf.pos)
      (by norm_num) (by norm_num)
  refine ⟨{ nn with
      theta1 := nn.theta1 ++ smulM LEARNING_RATE u1
      theta2 := nn.theta2 ++ smulM LEARNING_RATE u2
      hidden_layer_bias := nn.hidden_layer_bias ++ smulM LEARNING_RATE oe
      input_layer_bias := nn.input_layer_bias ++ smulM LEARNING_RATE hid },
    ?_, ?_, ?_, ?_, ?_, rfl⟩
  · simp [stepE, npAdd, npSub, npMulElem, e1, e2, e3, e4, e5, e6, e7, e8, e9]
  · exact shaped_append hwf.t1 (shaped_smulM s8)
  · exact shaped_append hwf.t2 (shaped_smulM s9)
  · exact shaped_append hwf.b1 (shaped_smulM s7)
  · exact shaped_append hwf.b2 (shaped_smulM s5)

theorem npDot_none {a b : Matrix'} (h : nCols a ≠ b.length) : npDot a b = none := by
  unfold npDot
  rw [if_neg]
  simp only [Bool.and_eq_true, beq_iff_eq, not_and]
  intro _
  exact h

/-- After one (corrupting) training step, the very next step fails inside
forward propagation: `np.dot(theta2, y1)` sees inner dimensions `H`
versus `2H`. -/
theorem stepE_second_none (nn' : Network) (x : List ℝ) (l' H : ℕ)
    (h1 : Shaped nn'.theta1 (H + H) 400)
    (hb1 : Shaped nn'.input_layer_bias (H + H) 1)
    (h2 : Shaped nn'.theta2 20 H)
    (hx : x.length = 400) (hH : 0 < H) :
    stepE nn' x l' = none := by
  have hxc : Shaped (colVec x) 400 1 := by rw [← hx]; exact shaped_colVec x
  obtain ⟨y1a, e1, s1⟩ := npDot_some h1 hxc (by omega) (by norm_num)
  obtain ⟨sum1, e2, s2⟩ :=
    npZip_some (f := fun u v => u + v) s1 (shaped_reshapeCol hb1)
  have hd : npDot nn'.theta2 (matSigmoid sum1) = none := by
    apply npDot_none
    rw [nCols_of_shaped h2 (by norm_num), (shaped_matSigmoid s2).1]
    omega
  simp [stepE, npAdd, e1, e2, hd]

/-- C2 (code bug, failing evaluation): batch of three samples on a
well-formed width-1 network: samples 0 and 1 are fully valid, sample 2
has the invalid label 15, so by the claim `train` must abort at position
2 with a range error, keeping the updates of samples 0 and 1.  Instead a
numpy shape error surfaces at position 1: sample 0's `+=` extended the
weight lists (Python `list.__iadd__`) rather than adding elementwise, so
sample 1's forward pass already fails, and the invalid sample is never
even validated. -/
theorem C2_batch_abort_bug :
    (train zeroNet [⟨some flat400, some (.int 3)⟩, ⟨some flat400, some (.int 3)⟩,
      ⟨some flat400, some (.int 15)⟩]).2 = some (.numpyFailure 1) := by
  have hv0 : validateSample 0 ⟨some flat400, some (.int 3)⟩ = .ok (zeros400, 3) := by
    rw [validateSample_label 0 flat400 (.int 3) flat400_data_length]
    rw [if_pos (by decide)]
    rfl
  have hv1 : validateSample 1 ⟨some flat400, some (.int 3)⟩ = .ok (zeros400, 3) := by
    rw [validateSample_label 1 flat400 (.int 3) flat400_data_length]
    rw [if_pos (by decide)]
    rfl
  obtain ⟨nn1, hs, ht1, ht2, hb1, _, _⟩ :=
    stepE_shapes zeroNet zeros400 3 WF_zeroNet zeros400_length
  have hfail : stepE nn1 zeros400 3 = none :=
    stepE_second_none nn1 zeros400 3 1 ht1 hb1 ht2 zeros400_length Nat.one_pos
  unfold train
  rw [if_neg (by simp)]
  simp only [trainGo, hv0, hs, hv1, hfail]

/-- The failures `predict` can raise (both surface as `ValueError`,
re-raised with an "Invalid input data" message). -/
inductive PredictError where
  | shape (got : ℕ)
  | misaligned
deriving DecidableEq

/-- Scan of `results.index(max(results))`: `i` is the index of the head
of the remaining list, `best` the index of the current maximum `bv`; the
maximum is only replaced by a strictly larger value, so ties keep the
earliest index. -/
noncomputable def idxOfMaxAux : ℕ → ℕ → ℝ → List ℝ → ℕ
  | _, best, _, [] => best
  | i, best, bv, y :: ys =>
    if bv < y then idxOfMaxAux (i + 1) i y ys
    else idxOfMaxAux (i + 1) best bv ys

/-- Model of `results.index(max(results))`: the first index attaining the maximum. -/
noncomputable def idxOfMax : List ℝ → ℕ
  | [] => 0
  | x :: xs => idxOfMaxAux 1 0 x xs

theorem idxOfMaxAux_cons (i best : ℕ) (bv y : ℝ) (ys : List ℝ) :
    idxOfMaxAux i best bv (y :: ys) =
      if bv < y then idxOfMaxAux (i + 1) i y ys
      else idxOfMaxAux (i + 1) best bv ys := rfl

/-- Proposition that `r` is the first index attaining the maximum of `l`. -/
def FirstArgmax (l : List ℝ) (r : ℕ) : Prop :=
  r < l.length ∧
  (∀ j < l.length, l.getD j 0 ≤ l.getD r 0) ∧
  (∀ j < r, l.getD j 0 < l.getD r 0)

theorem idxOfMaxAux_correct :
    ∀ (ys pre : List ℝ) (best : ℕ) (bv : ℝ),
      FirstArgmax pre best → bv = pre.getD best 0 →
      FirstArgmax (pre ++ ys) (idxOfMaxAux pre.length best bv ys)
  | [], pre, best, bv, h, _ => by simpa using h
  | y :: ys, pre, best, bv, h, hbv => by
    obtain ⟨hlt, hmax, hstrict⟩ := h
    have key : pre ++ y :: ys = (pre ++ [y]) ++ ys := by simp
    have hylast : (pre ++ [y]).getD pre.length 0 = y := by
      rw [List.getD_append_right _ _ _ _ le_rfl]
      simp
    rw [idxOfMaxAux_cons]
    by_cases hc : bv < y
    · rw [if_pos hc]
      have hFA : FirstArgmax (pre ++ [y]) pre.length := by
        refine ⟨by simp, ?_, ?_⟩
        · intro j hj
          rw [hylast]
          simp only [List.length_append, List.length_singleton] at hj
          rcases Nat.lt_or_ge j pre.length with hj' | hj'
          · rw [List.getD_append _ _ _ _ hj']
            calc pre.getD j 0 ≤ pre.getD best 0 := hmax j hj'
            _ = bv := hbv.symm
            _ ≤ y := le_of_lt hc
          · have : j = pre.length := by omega
            rw [this, hylast]
        · intro j hj
          rw [hylast, List.getD_append _ _ _ _ hj]
          calc pre.getD j 0 ≤ pre.getD best 0 := hmax j (by omega)
          _ = bv := hbv.symm
          _ < y := hc
      have ih := idxOfMaxAux_correct ys (pre ++ [y]) pre.length y hFA hylast.symm
      rw [key]
      simpa using ih
    · rw [if_neg hc]
      have hbest : (pre ++ [y]).getD best 0 = pre.getD best 0 :=
        List.getD_append _ _ _ _ hlt
      have hFA : FirstArgmax (pre ++ [y]) best := by
        refine ⟨by simp; omega, ?_, ?_⟩
        · intro j hj
          rw [hbest]
          simp only [List.length_append, List.length_singleton] at hj
          rcases Nat.lt_or_ge j pre.length with hj' | hj'
          · rw [List.getD_append _ _ _ _ hj']
            exact hmax j hj'
          · have : j = pre.length := by omega
            rw [this, hylast, ← hbv]
            exact not_lt.mp hc
        · intro j hj
          rw [hbest, List.getD_append _ _ _ _ (by omega)]
          exact hstrict j hj
      have ih := idxOfMaxAux_correct ys (pre ++ [y]) best bv hFA (by rw [hbest]; exact hbv)
      rw [key]
      simpa using ih

theorem idxOfMax_firstArgmax (l : List ℝ) (hl : l ≠ []) :
    FirstArgmax l (idxOfMax l) := by
  match l with
  | x :: xs =>
    have h0 : FirstArgmax [x] 0 := by
      refine ⟨by simp, ?_, ?_⟩
      · intro j hj
        have : j = 0 := by simpa using hj
        rw [this]
      · intro j hj
        omega
    have := idxOfMaxAux_correct xs [x] 0 x h0 (by simp)
    simpa [idxOfMax] using this

/-- The forward propagation of `predict`, ending with
`results = y2.flatten().tolist()`. -/
noncomputable def forwardOut (nn : Network) (x : List ℝ) : Option (List ℝ) := do
  let y1a ← npDot nn.theta1 (colVec x)
  let y1b ← npAdd y1a (reshapeCol nn.input_layer_bias)
  let y1 := matSigmoid y1b
  let y2a ← npDot nn.theta2 y1
  let y2b ← npAdd y2a (reshapeCol nn.hidden_layer_bias)
  some (matSigmoid y2b).flatten

/-- The method `predict(test)`: `np.array(test, dtype=float).reshape(-1, 1)` must
have 400 rows, then forward propagation only, then
`results.index(max(results))`. -/
noncomputable def predictE (nn : Network) (t : NDArray) : Except PredictError ℕ :=
  if (colVec t.data).length ≠ 400 then .error (.shape (colVec t.data).length)
  else
    match forwardOut nn t.data with
    | none => .error .misaligned
    | some results => .ok (idxOfMax results)

theorem forwardOut_some (nn : Network) (x : List ℝ)
    (hwf : WF nn) (hx : x.length = 400) :
    ∃ out, forwardOut nn x = some out ∧ out.length = 10 := by
  have hxc : Shaped (colVec x) 400 1 := by rw [← hx]; exact shaped_colVec x
  obtain ⟨y1a, e1, s1⟩ := npDot_some hwf.t1 hxc hwf.pos (by norm_num)
  obtain ⟨y1b, e2, s2⟩ :=
    npZip_some (f := fun u v => u + v) s1 (shaped_reshapeCol hwf.b1)
  obtain ⟨y2a, e3, s3⟩ :=
    npDot_some hwf.t2 (shaped_matSigmoid s2) (by norm_num) hwf.pos
  obtain ⟨y2b, e4, s4⟩ :=
    npZip_some (f := fun u v => u + v) s3 (shaped_reshapeCol hwf.b2)
  refine ⟨(matSigmoid y2b).flatten, ?_, ?_⟩
  · simp [forwardOut, npAdd, e1, e2, e3, e4]
  · exact flatten_length_of_shaped _ 10 (shaped_matSigmoid s4)

/-- C3: on a well-formed network, `predict` on any 400-element numeric
input returns `ok` with the first index attaining the maximum of the
10-element output activation vector; in particular the label is in `[0,9]`. -/
theorem C3_predict_argmax (nn : Network) (t : NDArray)
    (hwf : WF nn) (ht : t.data.length = 400) :
    ∃ out, forwardOut nn t.data = some out ∧ out.length = 10 ∧
      predictE nn t = .ok (idxOfMax out) ∧ idxOfMax out ≤ 9 ∧
      FirstArgmax out (idxOfMax out) := by
  obtain ⟨out, hout, hlen⟩ := forwardOut_some nn t.data hwf ht
  have hne : out ≠ [] := by
    intro h
    rw [h] at hlen
    simp at hlen
  have hfa := idxOfMax_firstArgmax out hne
  refine ⟨out, hout, hlen, ?_, ?_, hfa⟩
  · unfold predictE
    rw [if_neg (by simp [colVec, ht])]
    rw [hout]
  · have := hfa.1
    omega

/-- Witness for C3 at the zero network and the all-zero input. -/
theorem C3_predict_argmax_witness :
    ∃ out, forwardOut zeroNet flat400.data = some out ∧ out.length = 10 ∧
      predictE zeroNet flat400 = .ok (idxOfMax out) ∧ idxOfMax out ≤ 9 ∧
      FirstArgmax out (idxOfMax out) :=
  C3_predict_argmax zeroNet flat400 WF_zeroNet flat400_data_length

/-- The method `predict` in explicit state-passing form: the method body only reads
`self.theta1`, `self.theta2`, `self.input_layer_bias`,
`self.hidden_layer_bias`; it contains no assignment to `self`, so the
instance state it leaves behind is the instance state it received. -/
noncomputable def predictS (nn : Network) (t : NDArray) :
    Except PredictError ℕ × Network :=
  (predictE nn t, nn)

/-- C9: `predict` performs forward propagation only: after a call on
any well-formed 400-length input, all four weight tensors and
`num_hidden_nodes` are unchanged. -/
theorem C9_predict_no_mutation (nn : Network) (t : NDArray)
    (_ht : t.data.length = 400) :
    (predictS nn t).2.theta1 = nn.theta1 ∧
    (predictS nn t).2.theta2 = nn.theta2 ∧
    (predictS nn t).2.input_layer_bias = nn.input_layer_bias ∧
    (predictS nn t).2.hidden_layer_bias = nn.hidden_layer_bias ∧
    (predictS nn t).2.num_hidden_nodes = nn.num_hidden_nodes :=
  ⟨rfl, rfl, rfl, rfl, rfl⟩

/-- Witness for C9 at the zero network and the all-zero input. -/
theorem C9_predict_no_mutation_witness :
    (predictS zeroNet flat400).2.theta1 = zeroNet.theta1 ∧
    (predictS zeroNet flat400).2.theta2 = zeroNet.theta2 ∧
    (predictS zeroNet flat400).2.input_layer_bias = zeroNet.input_layer_bias ∧
    (predictS zeroNet flat400).2.hidden_layer_bias = zeroNet.hidden_layer_bias ∧
    (predictS zeroNet flat400).2.num_hidden_nodes = zeroNet.num_hidden_nodes :=
  C9_predict_no_mutation zeroNet flat400 flat400_data_length

theorem colVec_length (x : List ℝ) : (colVec x).length = x.length := by
  simp [colVec]

theorem validateSample_some_some (idx : ℕ) (a : NDArray) (l : PyNum) :
    validateSample idx ⟨some a, some l⟩ =
      if (colVec a.data).length ≠ 400 then
        .error (.shape idx (colVec a.data).length)
      else if pyInt l < 0 ∨ 9 < pyInt l then .error (.range idx (pyInt l))
      else .ok (a.data, (pyInt l).toNat) := rfl

/-- C10: shape validation counts the total number of scalar elements
after `reshape(-1, 1)`: `predict` (and `train`'s per-sample validation)
raises a shape error exactly when the flattened element count differs
from 400; any rectangular nested array with 400 elements in total (for
example a 20×20 grid) passes and is processed as the flat 400-vector. -/
theorem C10_flatten_count_validation :
    (∀ (nn : Network) (t : NDArray),
      (∃ g, predictE nn t = .error (.shape g)) ↔ t.data.length ≠ 400) ∧
    (∀ (nn : Network) (t : NDArray), t.data.length = 400 →
      predictE nn t = predictE nn ⟨[400], t.data⟩) ∧
    (∀ (nn : Network) (t : NDArray), t.shape = [20, 20] →
      t.data.length = t.shape.prod →
      predictE nn t = predictE nn ⟨[400], t.data⟩ ∧
        ¬ ∃ g, predictE nn t = .error (.shape g)) ∧
    (∀ (idx : ℕ) (a : NDArray) (l : PyNum),
      (∃ g, validateSample idx ⟨some a, some l⟩ = .error (.shape idx g)) ↔
        a.data.length ≠ 400) := by
  have hiff : ∀ (nn : Network) (t : NDArray),
      (∃ g, predictE nn t = .error (.shape g)) ↔ t.data.length ≠ 400 := by
    intro nn t
    unfold predictE
    rw [colVec_length]
    by_cases h : t.data.length = 400
    · rw [if_neg (by omega)]
      simp only [h, ne_eq, not_true_eq_false, iff_false, not_exists]
      intro g
      cases hf : forwardOut nn t.data <;> simp [hf]
    · rw [if_pos (by omega)]
      simp only [h, ne_eq, not_false_iff, iff_true]
      exact ⟨t.data.length, rfl⟩
  have hflat : ∀ (nn : Network) (t : NDArray), t.data.length = 400 →
      predictE nn t = predictE nn ⟨[400], t.data⟩ := fun nn t _ => rfl
  refine ⟨hiff, hflat, ?_, ?_⟩
  · intro nn t hsh hprod
    have h400 : t.data.length = 400 := by rw [hprod, hsh]; rfl
    refine ⟨hflat nn t h400, ?_⟩
    rw [hiff nn t]
    omega
  · intro idx a l
    rw [validateSample_some_some, colVec_length]
    by_cases h : a.data.length = 400
    · rw [if_neg (by omega)]
      simp only [h, ne_eq, not_true_eq_false, iff_false, not_exists]
      intro g
      by_cases hr : pyInt l < 0 ∨ 9 < pyInt l <;> simp [hr]
    · rw [if_pos (by omega)]
      simp only [h, ne_eq, not_false_iff, iff_true]
      exact ⟨a.data.length, rfl⟩

/-- Witness for C10: a 20×20 grid with 400 zeros passes and predicts like
the flat vector, and a 100-element input is rejected with a shape error. -/
theorem C10_flatten_count_validation_witness :
    (predictE zeroNet ⟨[20, 20], zeros400⟩ = predictE zeroNet ⟨[400], zeros400⟩ ∧
      ¬ ∃ g, predictE zeroNet ⟨[20, 20], zeros400⟩ = .error (.shape g)) ∧
    (∃ g, predictE zeroNet ⟨[100], List.replicate 100 0⟩ = .error (.shape g)) := by
  constructor
  · exact C10_flatten_count_validation.2.2.1 zeroNet ⟨[20, 20], zeros400⟩ rfl
      (by rw [show (⟨[20, 20], zeros400⟩ : NDArray).data = zeros400 from rfl,
        zeros400_length]; rfl)
  · exact (C10_flatten_count_validation.1 zeroNet ⟨[100], List.replicate 100 0⟩).mpr
      (by rw [show (⟨[100], List.replicate 100 0⟩ : NDArray).data =
        List.replicate 100 (0 : ℝ) from rfl, List.length_replicate]; omega)

/-- The inner loop of `model_test`: predict each test index in order and
count correct guesses; a prediction failure propagates. -/
noncomputable def runCount (dm : ℕ → List ℝ) (dl : ℕ → ℕ) (nn : Network) :
    List ℕ → Except PredictError ℕ
  | [] => .ok 0
  | i :: rest => do
    let p ← predictE nn ⟨[(dm i).length], dm i⟩
    let c ← runCount dm dl nn rest
    pure ((if dl i = p then 1 else 0) + c)

/-- The `for _ in range(test_runs)` loop of `model_test`, accumulating
`avg_sum += correct_guess_count / float(len(test_indices))`. -/
noncomputable def avgRuns (dm : ℕ → List ℝ) (dl : ℕ → ℕ) (nn : Network)
    (ti : List ℕ) : ℕ → ℝ → Except PredictError ℝ
  | 0, acc => .ok acc
  | n + 1, acc => do
    let c ← runCount dm dl nn ti
    avgRuns dm dl nn ti n (acc + (c : ℝ) / (ti.length : ℝ))

/-- The function `model_test(data_matrix, data_labels, test_indices, nn)`: returns 0.0
for an empty test set, otherwise averages the per-run accuracy over
`test_runs = 10` runs. -/
noncomputable def model_test (dm : ℕ → List ℝ) (dl : ℕ → ℕ)
    (ti : List ℕ) (nn : Network) : Except PredictError ℝ :=
  if ti.isEmpty then .ok 0
  else do
    let s ← avgRuns dm dl nn ti 10 0
    pure (s / 10)

/-- Modelled from the spec: `evaluateAccuracy` reduced to a single pass,
"the fraction of test indices whose predicted label equals their true
label" (0.0 for an empty test set). -/
noncomputable def singlePassAccuracy (dm : ℕ → List ℝ) (dl : ℕ → ℕ)
    (ti : List ℕ) (nn : Network) : Except PredictError ℝ :=
  if ti.isEmpty then .ok 0
  else do
    let c ← runCount dm dl nn ti
    pure ((c : ℝ) / (ti.length : ℝ))

theorem avgRuns_cons (dm : ℕ → List ℝ) (dl : ℕ → ℕ) (nn : Network)
    (ti : List ℕ) (n : ℕ) (acc : ℝ) :
    avgRuns dm dl nn ti (n + 1) acc =
      (runCount dm dl nn ti).bind
        (fun c => avgRuns dm dl nn ti n (acc + (c : ℝ) / (ti.length : ℝ))) := rfl

theorem avgRuns_ok {dm : ℕ → List ℝ} {dl : ℕ → ℕ} {nn : Network}
    {ti : List ℕ} {c : ℕ} (h : runCount dm dl nn ti = .ok c) :
    ∀ (n : ℕ) (acc : ℝ),
      avgRuns dm dl nn ti n acc =
        .ok (acc + n * ((c : ℝ) / (ti.length : ℝ)))
  | 0, acc => by simp [avgRuns]
  | n + 1, acc => by
    rw [avgRuns_cons, h]
    show avgRuns dm dl nn ti n (acc + (c : ℝ) / (ti.length : ℝ)) = _
    rw [avgRuns_ok h n]
    congr 1
    push_cast
    ring

theorem avgRuns_error {dm : ℕ → List ℝ} {dl : ℕ → ℕ} {nn : Network}
    {ti : List ℕ} {e : PredictError} (h : runCount dm dl nn ti = .error e)
    (n : ℕ) (acc : ℝ) :
    avgRuns dm dl nn ti (n + 1) acc = .error e := by
  rw [avgRuns_cons, h]
  rfl

/-- C8: `evaluateAccuracy` returns exactly 0.0 on an empty test-index
list; and since prediction with fixed weights is deterministic, the
10-run averaged result always equals the single-pass fraction of test
indices predicted correctly (the averaging loop refines to one pass). -/
theorem C8_model_test_refines (dm : ℕ → List ℝ) (dl : ℕ → ℕ) (nn : Network) :
    model_test dm dl [] nn = .ok 0 ∧
    ∀ ti, model_test dm dl ti nn = singlePassAccuracy dm dl ti nn := by
  constructor
  · rfl
  · intro ti
    unfold model_test singlePassAccuracy
    by_cases hti : ti.isEmpty
    · rw [if_pos hti, if_pos hti]
    · rw [if_neg hti, if_neg hti]
      cases hc : runCount dm dl nn ti with
      | error e =>
        have hL : avgRuns dm dl nn ti 10 0 = .error e := avgRuns_error hc 9 0
        rw [hL]
        rfl
      | ok c =>
        have hL : avgRuns dm dl nn ti 10 0 =
            .ok (0 + (10 : ℕ) * ((c : ℝ) / (ti.length : ℝ))) := avgRuns_ok hc 10 0
        rw [hL]
        show Except.ok ((0 + ((10 : ℕ) : ℝ) * ((c : ℝ) / (ti.length : ℝ))) / 10) =
          Except.ok ((c : ℝ) / (ti.length : ℝ))
        congr 1
        push_cast
        ring

/-- The method `_train(data_matrix, data_labels, training_indices)`: the internal,
unvalidated per-index training loop; a numpy shape error propagates
uncaught (`none`). -/
noncomputable def _train (dm : ℕ → List ℝ) (dl : ℕ → ℕ) (nn : Network) :
    List ℕ → Option Network
  | [] => some nn
  | i :: rest =>
    match stepE nn (dm i) (dl i) with
    | none => none
    | some nn' => _train dm dl nn' rest

theorem _train_nil (dm : ℕ → List ℝ) (dl : ℕ → ℕ) (nn : Network) :
    _train dm dl nn [] = some nn := rfl

theorem _train_cons (dm : ℕ → List ℝ) (dl : ℕ → ℕ) (nn : Network)
    (i : ℕ) (rest : List ℕ) :
    _train dm dl nn (i :: rest) =
      match stepE nn (dm i) (dl i) with
      | none => none
      | some nn' => _train dm dl nn' rest := rfl

/-- Python `range(lo, hi, step)` for a positive step: the half-open
interval `[lo, hi)` stepped by `step`. -/
def pyRange (lo hi step : ℕ) : List ℕ :=
  (List.range ((hi - lo + step - 1) / step)).map (fun k => lo + k * step)

/-- Construction with `use_file=False`: random initialization (abstracted
by the `init` oracle), then one full training epoch over the supplied
indices, then `save()` — a no-op since file use is disabled. -/
noncomputable def constructNoFile (init : ℕ → Network) (dm : ℕ → List ℝ)
    (dl : ℕ → ℕ) (ti : List ℕ) (h : ℕ) : Option Network :=
  _train dm dl (init h) ti

noncomputable instance : DecidableRel (fun (a b : ℕ × ℝ) => b.2 ≤ a.2) :=
  fun a b => Real.decidableLE b.2 a.2

/-- The body of `find_optimal_hidden_nodes`'s `for` loop: for each
candidate width, construct a fresh network (first epoch in `__init__`),
train `epochs - 1 = 2` further epochs, measure accuracy with
`model_test`, and append `(nodes, accuracy)` to the results. -/
noncomputable def sweepLoop (init : ℕ → Network) (dm : ℕ → List ℝ)
    (dl : ℕ → ℕ) (train_indices test_indices : List ℕ) :
    List ℕ → Option (List (ℕ × ℝ))
  | [] => some []
  | i :: rest => do
    let nn0 ← constructNoFile init dm dl train_indices i
    let nn1 ← _train dm dl nn0 train_indices
    let nn2 ← _train dm dl nn1 train_indices
    let p ← (model_test dm dl test_indices nn2).toOption
    let tail ← sweepLoop init dm dl train_indices test_indices rest
    some ((i, p) :: tail)

theorem sweepLoop_cons (init : ℕ → Network) (dm : ℕ → List ℝ) (dl : ℕ → ℕ)
    (tr te : List ℕ) (i : ℕ) (rest : List ℕ) :
    sweepLoop init dm dl tr te (i :: rest) =
      (constructNoFile init dm dl tr i).bind (fun nn0 =>
        (_train dm dl nn0 tr).bind (fun nn1 =>
          (_train dm dl nn1 tr).bind (fun nn2 =>
            ((model_test dm dl te nn2).toOption).bind (fun p =>
              (sweepLoop init dm dl tr te rest).bind (fun tail =>
                some ((i, p) :: tail)))))) := rfl

/-- The function `find_optimal_hidden_nodes`: run the loop over
`range(min_nodes, max_nodes, step)` and sort the collected results
descending by accuracy (Python's stable `sort` with `reverse=True`). -/
noncomputable def find_optimal_hidden_nodes (init : ℕ → Network)
    (dm : ℕ → List ℝ) (dl : ℕ → ℕ) (train_indices test_indices : List ℕ)
    (min_nodes max_nodes step : ℕ) : Option (List (ℕ × ℝ)) := do
  let results ← sweepLoop init dm dl train_indices test_indices
    (pyRange min_nodes max_nodes step)
  some (List.insertionSort (fun a b => b.2 ≤ a.2) results)

/-- A well-formed all-zero network of hidden width `h`. -/
def zeroNetWide (h : ℕ) : Network where
  theta1 := List.replicate h zeros400
  theta2 := List.replicate 10 (List.replicate h 0)
  input_layer_bias := List.replicate h [0]
  hidden_layer_bias := List.replicate 10 [0]
  num_hidden_nodes := h

theorem WF_zeroNetWide (h : ℕ) (hp : 0 < h) : WF (zeroNetWide h) := by
  refine ⟨⟨?_, ?_⟩, ⟨?_, ?_⟩, ⟨?_, ?_⟩, ⟨?_, ?_⟩, hp⟩
  · rw [show (zeroNetWide h).theta1 = List.replicate h zeros400 from rfl,
      List.length_replicate]
    rfl
  · intro row hmem
    rw [show (zeroNetWide h).theta1 = List.replicate h zeros400 from rfl] at hmem
    rw [List.eq_of_mem_replicate hmem, zeros400_length]
  · rfl
  · intro row hmem
    rw [show (zeroNetWide h).theta2 =
      List.replicate 10 (List.replicate h (0 : ℝ)) from rfl] at hmem
    rw [List.eq_of_mem_replicate hmem, List.length_replicate]
    rfl
  · rw [show (zeroNetWide h).input_layer_bias = List.replicate h [(0 : ℝ)] from rfl,
      List.length_replicate]
    rfl
  · intro row hmem
    rw [show (zeroNetWide h).input_layer_bias =
      List.replicate h [(0 : ℝ)] from rfl] at hmem
    rw [List.eq_of_mem_replicate hmem]
    rfl
  · rfl
  · intro row hmem
    rw [show (zeroNetWide h).hidden_layer_bias =
      List.replicate 10 [(0 : ℝ)] from rfl] at hmem
    rw [List.eq_of_mem_replicate hmem]
    rfl

/-- The constant data matrix whose every row is the 400-zero vector. -/
def dmZero : ℕ → List ℝ := fun _ => zeros400

/-- The constant label vector 0. -/
def dlZero : ℕ → ℕ := fun _ => 0

/-- C7 (code bug, failing evaluation): `range(5, 16, 5)` does give
the three candidate widths 5, 10, 15, but `sweep` never returns its
ranked list on any nonempty training set: already for `train_indices =
[0]` the constructor's first epoch corrupts the weight lists (the `+=`
extension bug), and the first of the two additional epochs crashes with
a numpy shape-misalignment error. -/
theorem C7_sweep_crashes :
    pyRange 5 16 5 = [5, 10, 15] ∧
    find_optimal_hidden_nodes zeroNetWide dmZero dlZero [0] [] 5 16 5 = none := by
  refine ⟨rfl, ?_⟩
  obtain ⟨nn1, hs, ht1, ht2, hb1, _, _⟩ :=
    stepE_shapes (zeroNetWide 5) (dmZero 0) (dlZero 0)
      (WF_zeroNetWide 5 (by norm_num)) zeros400_length
  have hfail : stepE nn1 (dmZero 0) (dlZero 0) = none :=
    stepE_second_none nn1 (dmZero 0) (dlZero 0) 5 ht1 hb1 ht2
      zeros400_length (by norm_num)
  have hcn : constructNoFile zeroNetWide dmZero dlZero [0] 5 = some nn1 := by
    show _train dmZero dlZero (zeroNetWide 5) [0] = some nn1
    rw [_train_cons, hs]
    rfl
  have hloop : sweepLoop zeroNetWide dmZero dlZero [0] [] [5, 10, 15] = none := by
    rw [sweepLoop_cons, hcn]
    show (_train dmZero dlZero nn1 [0]).bind _ = none
    rw [_train_cons, hfail]
    rfl
  unfold find_optimal_hidden_nodes
  rw [show pyRange 5 16 5 = [5, 10, 15] from rfl, hloop]
  rfl

/-- The persisted record content: the structured document `save` writes,
with fields `theta1`, `theta2`, `b1`, `b2`. -/
structure Saved where
  theta1 : Matrix'
  theta2 : Matrix'
  b1 : Matrix'
  b2 : Matrix'

/-- The `json_neural_network` document `save` builds from the instance. -/
def toSaved (nn : Network) : Saved :=
  ⟨nn.theta1, nn.theta2, nn.input_layer_bias, nn.hidden_layer_bias⟩

/-- The directory state relevant to persistence: the live record with its
modification time, the backup files as (mtime, content) pairs, and the
current clock.  `shutil.copy2` preserves the source's mtime, so a backup
carries the time at which the copied record was written; successive
record writes get strictly increasing times. -/
structure FileSys where
  record : Option (ℕ × Saved)
  backups : List (ℕ × Saved)
  now : ℕ

instance : DecidableRel (fun (a b : ℕ × Saved) => a.1 ≤ b.1) :=
  fun a b => Nat.decLe a.1 b.1

instance : DecidableRel (fun (a b : ℕ × Saved) => b.1 ≤ a.1) :=
  fun a b => Nat.decLe b.1 a.1

/-- Model of `backups.sort()`: ascending by modification time (times are distinct,
so the path tiebreaker of the Python tuple sort never fires). -/
def sortByMtime (l : List (ℕ × Saved)) : List (ℕ × Saved) :=
  List.insertionSort (fun a b => a.1 ≤ b.1) l

/-- Model of `backups.sort(reverse=True)`: newest first. -/
def sortByMtimeDesc (l : List (ℕ × Saved)) : List (ℕ × Saved) :=
  List.insertionSort (fun a b => b.1 ≤ a.1) l

/-- Model of `while len(backups) > max_backups: os.remove(backups.pop(0))`. -/
def pruneOldest (maxB : ℕ) : List (ℕ × Saved) → List (ℕ × Saved)
  | [] => []
  | x :: xs => if xs.length + 1 > maxB then pruneOldest maxB xs else x :: xs

/-- The method `_cleanup_old_backups(max_backups)`: scan the directory for backup
files, sort oldest-first by mtime, remove the oldest while more than
`max_backups` remain. -/
def cleanupOldBackups (bs : List (ℕ × Saved)) (maxB : ℕ) : List (ℕ × Saved) :=
  pruneOldest maxB (sortByMtime bs)

/-- The method `save(max_backups)` with `_use_file = True`: if a record exists, copy
it to a fresh backup file (`copy2` keeps its mtime) and clean up old
backups; then write the current tensors as the new record. -/
def saveFS (st : FileSys) (w : Saved) (maxB : ℕ) : FileSys :=
  match st.record with
  | none => { record := some (st.now, w), backups := st.backups, now := st.now + 1 }
  | some old =>
    { record := some (st.now, w)
      backups := cleanupOldBackups (old :: st.backups) maxB
      now := st.now + 1 }

/-- A directory with no record and no backups. -/
def emptyFS : FileSys := ⟨none, [], 0⟩

/-- Iteration of `n` successive `save(maxB)` calls writing contents `f 0, f 1, ...`,
starting from the empty directory. -/
def iterSave (f : ℕ → Saved) (maxB : ℕ) : ℕ → FileSys
  | 0 => emptyFS
  | n + 1 => saveFS (iterSave f maxB n) (f n) maxB

/-- The backups `(a + j, f (a + j))` for `j < len`, oldest first. -/
def ascRun (f : ℕ → Saved) (a len : ℕ) : List (ℕ × Saved) :=
  (List.range len).map (fun j => (a + j, f (a + j)))

theorem pruneOldest_eq_drop (maxB : ℕ) :
    ∀ l : List (ℕ × Saved), pruneOldest maxB l = l.drop (l.length - maxB)
  | [] => by simp [pruneOldest]
  | x :: xs => by
    simp only [pruneOldest]
    by_cases h : xs.length + 1 > maxB
    · rw [if_pos h, pruneOldest_eq_drop maxB xs]
      have : (x :: xs).length - maxB = (xs.length - maxB) + 1 := by
        simp only [List.length_cons]
        omega
      rw [this, List.drop_succ_cons]
    · rw [if_neg h]
      have : (x :: xs).length - maxB = 0 := by
        simp only [List.length_cons]
        omega
      rw [this, List.drop_zero]

theorem ascRun_length (f : ℕ → Saved) (a len : ℕ) : (ascRun f a len).length = len := by
  simp [ascRun]

theorem ascRun_snoc (f : ℕ → Saved) (a n : ℕ) :
    ascRun f a (n + 1) = ascRun f a n ++ [(a + n, f (a + n))] := by
  unfold ascRun
  rw [List.range_succ, List.map_append]
  rfl

theorem ascRun_cons (f : ℕ → Saved) (a n : ℕ) :
    ascRun f a (n + 1) = (a, f a) :: ascRun f (a + 1) n := by
  unfold ascRun
  rw [List.range_succ_eq_map, List.map_cons, List.map_map]
  refine congrArg₂ _ (by simp) ?_
  apply List.map_congr_left
  intro j _
  simp only [Function.comp_apply]
  have : a + (j + 1) = a + 1 + j := by omega
  rw [this]

theorem ascRun_cons_of_pos (f : ℕ → Saved) (a len : ℕ) (h : 0 < len) :
    ascRun f a len = (a, f a) :: ascRun f (a + 1) (len - 1) := by
  obtain ⟨m, rfl⟩ : ∃ m, len = m + 1 := ⟨len - 1, by omega⟩
  simp only [Nat.add_sub_cancel]
  exact ascRun_cons f a m

theorem ascRun_snoc_of_pos (f : ℕ → Saved) (a len : ℕ) (h : 0 < len) :
    ascRun f a len =
      ascRun f a (len - 1) ++ [(a + (len - 1), f (a + (len - 1)))] := by
  obtain ⟨m, rfl⟩ : ∃ m, len = m + 1 := ⟨len - 1, by omega⟩
  simp only [Nat.add_sub_cancel]
  exact ascRun_snoc f a m

theorem ascRun_sorted (f : ℕ → Saved) (a len : ℕ) :
    List.Sorted (fun u v : ℕ × Saved => u.1 ≤ v.1) (ascRun f a len) := by
  unfold ascRun List.Sorted
  rw [List.pairwise_map]
  exact List.Pairwise.imp (fun h => by omega) (List.pairwise_lt_range _)

theorem ascRun_fst_lt (f : ℕ → Saved) (a len : ℕ) :
    ∀ b ∈ ascRun f a len, b.1 < a + len := by
  intro b hb
  simp only [ascRun, List.mem_map, List.mem_range] at hb
  obtain ⟨j, hj, hbj⟩ := hb
  rw [← hbj]
  show a + j < a + len
  omega

theorem orderedInsert_of_forall_not {α : Type} {r : α → α → Prop}
    [DecidableRel r] (x : α) :
    ∀ l : List α, (∀ b ∈ l, ¬ r x b) → List.orderedInsert r x l = l ++ [x]
  | [], _ => rfl
  | b :: l, h => by
    simp only [List.orderedInsert]
    rw [if_neg (h b (List.mem_cons_self b l))]
    rw [orderedInsert_of_forall_not x l (fun c hc => h c (List.mem_cons_of_mem b hc))]
    rfl

/-- Sorting a directory listing in which the newly created backup has a
strictly larger mtime than every existing (already sorted) backup simply
appends it at the end. -/
theorem sortByMtime_new_max (x : ℕ × Saved) (l : List (ℕ × Saved))
    (hsort : List.Sorted (fun u v : ℕ × Saved => u.1 ≤ v.1) l)
    (hmax : ∀ b ∈ l, b.1 < x.1) :
    sortByMtime (x :: l) = l ++ [x] := by
  show List.orderedInsert _ x (List.insertionSort _ l) = l ++ [x]
  rw [hsort.insertionSort_eq]
  exact orderedInsert_of_forall_not x l (fun b hb => by
    have := hmax b hb
    omega)

theorem cleanup_ascRun (f : ℕ → Saved) (K n : ℕ) (hn : 1 ≤ n) :
    cleanupOldBackups
        ((n - 1, f (n - 1)) :: ascRun f (n - 1 - K) (min (n - 1) K)) K
      = ascRun f (n - K) (min n K) := by
  have hmax : ∀ b ∈ ascRun f (n - 1 - K) (min (n - 1) K), b.1 < n - 1 := by
    intro b hb
    have := ascRun_fst_lt f (n - 1 - K) (min (n - 1) K) b hb
    omega
  unfold cleanupOldBackups
  rw [sortByMtime_new_max _ _ (ascRun_sorted f _ _) hmax]
  rw [pruneOldest_eq_drop]
  rw [List.length_append, ascRun_length]
  rcases Nat.lt_or_ge (n - 1) K with hreg | hreg
  · have hlen : min (n - 1) K = n - 1 := min_eq_left (le_of_lt hreg)
    have hmin : min n K = n := min_eq_left (by omega)
    have hnk : n - K = 0 := by omega
    have hdrop : min (n - 1) K + List.length [(n - 1, f (n - 1))] - K = 0 := by
      simp only [List.length_singleton]
      omega
    rw [hdrop, List.drop_zero, hmin, hnk, hlen]
    rw [ascRun_snoc_of_pos f 0 n hn]
    have h0 : n - 1 - K = 0 := by omega
    rw [h0]
    simp
  · have hlen : min (n - 1) K = K := min_eq_right hreg
    have hmin : min n K = K := min_eq_right (by omega)
    have hdrop : min (n - 1) K + List.length [(n - 1, f (n - 1))] - K = 1 := by
      simp only [List.length_singleton]
      omega
    rw [hdrop, hmin, hlen]
    rcases Nat.eq_zero_or_pos K with hK | hK
    · subst hK
      simp [ascRun]
    · rw [ascRun_cons_of_pos f (n - 1 - K) K hK, List.cons_append, List.drop_succ_cons,
        List.drop_zero]
      rw [ascRun_snoc_of_pos f (n - K) K hK]
      have e1 : n - 1 - K + 1 = n - K := by omega
      have e2 : n - K + (K - 1) = n - 1 := by omega
      rw [e1, e2]

/-- The state after `i ≥ 1` saves: the record holds `f (i-1)` written at
time `i-1`, and the backups are exactly the most recent
`min (i-1) maxB` of the `i-1` backups ever created, oldest first. -/
theorem iterSave_spec (f : ℕ → Saved) (K : ℕ) :
    ∀ i, 1 ≤ i →
      iterSave f K i =
        ⟨some (i - 1, f (i - 1)), ascRun f (i - 1 - K) (min (i - 1) K), i⟩ := by
  intro i
  induction i with
  | zero => omega
  | succ n ih =>
    intro _
    rcases Nat.eq_zero_or_pos n with hn | hn
    · subst hn
      show saveFS emptyFS (f 0) K = _
      have : min (0 : ℕ) K = 0 := Nat.zero_min K
      simp [saveFS, emptyFS, this, ascRun]
    · have IH := ih hn
      show saveFS (iterSave f K n) (f n) K = _
      rw [IH]
      show (⟨some (n, f n),
        cleanupOldBackups ((n - 1, f (n - 1)) :: ascRun f (n - 1 - K) (min (n - 1) K)) K,
        n + 1⟩ : FileSys) = _
      rw [cleanup_ascRun f K n hn]
      simp only [Nat.add_sub_cancel]

/-- C5: starting from no record and no backups, after `N` successive
`save(maxBackups = K)` calls with `N > K` and persistence enabled,
exactly `K` backup files remain, and they are the `K` most recently
created ones: their mtimes are `N-1-K, ..., N-2` (the `K` largest of the
`N-1` backup mtimes `0..N-2`), pruning having removed the oldest first. -/
theorem C5_backup_rotation (f : ℕ → Saved) (K N : ℕ) (h : K < N) :
    (iterSave f K N).backups = ascRun f (N - 1 - K) K ∧
    (iterSave f K N).backups.length = K := by
  have h1 : 1 ≤ N := by omega
  rw [iterSave_spec f K N h1]
  have hmin : min (N - 1) K = K := min_eq_right (by omega)
  rw [hmin]
  exact ⟨rfl, ascRun_length f _ K⟩

/-- Witness for C5: three saves with `maxBackups = 1` leave exactly the
single backup stamped 1 (the most recent of the two ever created). -/
theorem C5_backup_rotation_witness :
    (iterSave (fun _ => toSaved zeroNet) 1 3).backups =
      ascRun (fun _ => toSaved zeroNet) (3 - 1 - 1) 1 ∧
    (iterSave (fun _ => toSaved zeroNet) 1 3).backups.length = 1 :=
  C5_backup_rotation (fun _ => toSaved zeroNet) 1 3 (by norm_num)

/-- The method `restore_from_backup(backup_index)`: no-op returning `False` when
file use is disabled; otherwise scan the directory, sort the backups
newest first, return `False` if the index is out of range, else copy the
selected backup over the live record and `_load()` the four tensors from
it. -/
def restore_from_backup (st : FileSys) (nn : Network) (use_file : Bool)
    (idx : ℕ) : Bool × FileSys × Network :=
  if !use_file then (false, st, nn)
  else
    let bs := sortByMtimeDesc st.backups
    if h : idx < bs.length then
      let b := bs.get ⟨idx, h⟩
      (true,
        { st with record := some b },
        { nn with
          theta1 := b.2.theta1
          theta2 := b.2.theta2
          input_layer_bias := b.2.b1
          hidden_layer_bias := b.2.b2 })
    else (false, st, nn)

/-- C6: for every index out of range of the existing backups — in
particular whenever no backups exist at all — `restore_from_backup`
returns `False` and leaves the live record and all in-memory weight
tensors unchanged. -/
theorem C6_restore_out_of_range (st : FileSys) (nn : Network) (idx : ℕ)
    (h : st.backups.length ≤ idx) :
    restore_from_backup st nn true idx = (false, st, nn) := by
  unfold restore_from_backup
  rw [if_neg (by simp)]
  rw [dif_neg]
  rw [show (sortByMtimeDesc st.backups).length = st.backups.length from
    List.length_insertionSort _ _]
  omega

/-- Witness for C6: restoring index 0 from an empty directory fails and
changes nothing. -/
theorem C6_restore_out_of_range_witness :
    restore_from_backup emptyFS zeroNet true 0 = (false, emptyFS, zeroNet) :=
  C6_restore_out_of_range emptyFS zeroNet 0 le_rfl
